import Mathlib

/-!
Shallow embedding of `src/Spectral_Analysis.py` (the sonification pipeline):
spectral fundamental-frequency extraction, normalization of percentage
changes, harmonic frequency synthesis, pitch quantization, and tone
rendering.  Machine floats are idealized as real numbers; the pandas /
numpy float special values needed by the change-series claims are modelled
explicitly by the `PF` type.  Library primitives (`scipy.fft.fft`,
`np.hanning`, the pandas Gaussian rolling mean, `librosa.hz_to_midi`,
`librosa.midi_to_note`, `librosa.tone`) are embedded by their documented
mathematical definitions.
-/

noncomputable section

namespace SpectralAnalysis

/-- Sample rate, `SR = 44100` (CD quality). -/
def SR : ℕ := 44100

/-- Duration of each tone in seconds, `DURACION_NOTA = 0.15`. -/
def DURACION_NOTA : ℝ := 0.15

/-- Standard piano MIDI range, `RANGO_MIDI = (21, 108)`. -/
def RANGO_MIDI : ℤ × ℤ := (21, 108)

/-- Fixed table of six harmonic ratios, `HARMONIC_PROPS`
(unison, just major third, just fifth, major second, just fourth, minor sixth). -/
def HARMONIC_PROPS : List ℝ := [1, 5 / 4, 3 / 2, 9 / 8, 4 / 3, 8 / 5]

/-- Embedding of `np.clip(x, lo, hi) = min(max(x, lo), hi)`. -/
def clip (x lo hi : ℝ) : ℝ := min (max x lo) hi

/-- Embedding of `np.max` over a nonempty list; callers guard the empty case,
where numpy raises a `ValueError`. -/
def maxList : List ℝ → ℝ
  | [] => 0
  | [x] => x
  | x :: y :: ys => max x (maxList (y :: ys))

/-- Minimum of a list of reals.  The source computes
`frecuencias[picos[np.argmin(frecuencias[picos])]]`, which gathers exactly the
minimum value of the gathered frequency list. -/
def minList : List ℝ → ℝ
  | [] => 0
  | [x] => x
  | x :: y :: ys => min x (minList (y :: ys))

/-- Embedding of `np.hanning(n)`: the symmetric Hann window
`0.5 - 0.5*cos(2*pi*j/(n-1))` for `j = 0, ..., n-1`, with the numpy special
case `hanning(1) = [1]` (and `hanning(0) = []`). -/
def hanning (n : ℕ) : List ℝ :=
  if n = 1 then [1]
  else (List.range n).map fun j : ℕ => 0.5 - 0.5 * Real.cos (2 * Real.pi * j / ((n : ℝ) - 1))

/-- Elementwise product `serie * ventana` of the series with its Hann window. -/
def windowed (serie : List ℝ) : List ℝ :=
  List.zipWith (fun a b => a * b) serie (hanning serie.length)

/-- Embedding of `scipy.fft.fft`: the discrete Fourier transform
`X[k] = sum_j x[j] * zeta^(j*k)` with kernel `zeta = exp(-2*pi*I/n)`. -/
def dft (x : List ℝ) : List ℂ :=
  (List.range x.length).map fun k =>
    ((List.range x.length).map fun j =>
      (x.getD j 0 : ℂ) * Complex.exp (-(2 * (Real.pi : ℂ) * Complex.I) / x.length) ^ (j * k)).sum

/-- Embedding of `frecuencias = fftfreq(n, d=1)[:n//2]`:
the non-negative frequency bins `k/n` for `k = 0, ..., n//2 - 1`. -/
def frecuencias (n : ℕ) : List ℝ := (List.range (n / 2)).map fun k : ℕ => (k : ℝ) / n

/-- Embedding of `espectro = np.abs(fft_vals[:n//2]) ** 2`: half-spectrum power. -/
def espectro (serie : List ℝ) : List ℝ :=
  ((dft (windowed serie)).take (serie.length / 2)).map fun z => Complex.abs z ^ 2

/-- Embedding of `umbral = 0.15 * np.max(espectro)`. -/
def umbral (serie : List ℝ) : ℝ := 0.15 * maxList (espectro serie)

/-- Embedding of `picos = np.where(espectro > umbral)[0]`:
indices of the bins whose power strictly exceeds the threshold, in order. -/
def picos (serie : List ℝ) : List ℕ :=
  (List.range (espectro serie).length).filter fun i =>
    decide ((espectro serie).getD i 0 > umbral serie)

/-- Embedding of `frecuencia_base = frecuencias[picos[np.argmin(frecuencias[picos])]]`:
the lowest frequency among the significant peaks (argmin-then-gather returns the
minimum of the gathered values). -/
def frecuencia_base (serie : List ℝ) : ℝ :=
  minList ((picos serie).map fun i => (frecuencias serie.length).getD i 0)

/-- Embedding of `analisis_espectral_mejorado`.  The `none` result models the
`ValueError` that `np.max` raises on an empty half-spectrum (`n // 2 = 0`);
otherwise: `440.0` when no peak survives thresholding, else
`np.clip(abs(frecuencia_base), 80, 2000)`. -/
def analisis_espectral_mejorado (serie : List ℝ) : Option ℝ :=
  match espectro serie with
  | [] => none
  | _ :: _ =>
    if picos serie = [] then some 440
    else some (clip |frecuencia_base serie| 80 2000)

/-- Weight of `scipy.signal.windows.gaussian(5, std=1.5)` at offset `o` from the
window center: `exp(-o^2 / (2 * 1.5^2))`. -/
def gauss_w (o : ℤ) : ℝ := Real.exp (-((o : ℝ) ^ 2) / (2 * 1.5 ^ 2))

/-- Offsets of the centered window of size 5 that fall inside a series of
length `n` around index `i` (edge windows are truncated). -/
def offsets (n i : ℕ) : List ℤ :=
  ([-2, -1, 0, 1, 2] : List ℤ).filter fun o =>
    decide (0 ≤ (i : ℤ) + o ∧ (i : ℤ) + o < (n : ℤ))

/-- Embedding of
`rolling(window=5, min_periods=1, center=True, win_type='gaussian').mean(std=1.5).fillna(0)`:
the Gaussian-weighted mean of the in-bounds part of each centered window.
With `min_periods=1` the window always contains index `i` itself, so the
weight sum is positive and `fillna(0)` is the identity here. -/
def suavizado (xs : List ℝ) : List ℝ :=
  (List.range xs.length).map fun i =>
    ((offsets xs.length i).map fun o => gauss_w o * xs.getD ((i : ℤ) + o).toNat 0).sum /
      ((offsets xs.length i).map gauss_w).sum

/-- Embedding of `normalizar_cambios`: smooth, clamp to the asymmetric band
`[-0.08, 0.12]`, and rescale to `[0, 1]` via `(clamped + 0.08) / 0.2`. -/
def normalizar_cambios (xs : List ℝ) : List ℝ :=
  (suavizado xs).map fun s => (clip s (-0.08) 0.12 + 0.08) / 0.2

/-- Round to the nearest integer, ties to even: the rounding mode of
`np.round` (IEEE round-half-even, idealized over the reals). -/
def roundEven (x : ℝ) : ℤ := if Int.fract x = 1 / 2 then 2 * round (x / 2) else round x

/-- Embedding of `np.round(x, 2)`: round `100 * x` half-to-even, divide by 100. -/
def round2 (x : ℝ) : ℝ := (roundEven (100 * x) : ℝ) / 100

/-- Embedding of the frequency synthesis in `main`:
`hz_values = np.clip(frecuencia_base * props * (0.6 + 0.4 * normalized), 20, 5000).round(2)`
with `props[i] = HARMONIC_PROPS[i % len(HARMONIC_PROPS)]`. -/
def hz_values (frecuencia : ℝ) (normalized : List ℝ) : List ℝ :=
  (List.range normalized.length).map fun i =>
    round2 (clip (frecuencia * HARMONIC_PROPS.getD (i % HARMONIC_PROPS.length) 0 *
      (0.6 + 0.4 * normalized.getD i 0)) 20 5000)

/-- Embedding of `librosa.hz_to_midi`: `12 * log2(hz / 440) + 69`. -/
def hz_to_midi (hz : ℝ) : ℝ := 12 * Real.logb 2 (hz / 440) + 69

/-- Python `int()`: truncation toward zero. -/
def pyInt (x : ℝ) : ℤ := if 0 ≤ x then ⌊x⌋ else -⌊-x⌋

/-- Embedding of `midi_clip = np.clip(lr.hz_to_midi(hz), *RANGO_MIDI)` followed by
`int(midi_clip)`. -/
def midiOf (hz : ℝ) : ℤ :=
  pyInt (clip (hz_to_midi hz) (RANGO_MIDI.1 : ℝ) (RANGO_MIDI.2 : ℝ))

/-- Note names of the twelve pitch classes, as used by `librosa.midi_to_note`. -/
def NOTE_NAMES : List String := ["C", "C♯", "D", "D♯", "E", "F", "F♯", "G", "G♯", "A", "A♯", "B"]

/-- Embedding of `librosa.midi_to_note(m)` (octave form): pitch class
`NOTE_NAMES[m % 12]` and octave `m // 12 - 1` (Python floor division). -/
def midi_to_note (m : ℤ) : String :=
  NOTE_NAMES.getD (m.emod 12).toNat ("C") ++ toString (m.fdiv 12 - 1)

/-- The happy path of one iteration of the note loop in `main`. -/
def notaOf (hz : ℝ) : String := midi_to_note (midiOf hz)

/-- The per-element try/except of the note loop: a conversion attempt is an
`Option`-valued function; a failure (`none`) is logged and replaced by the
fixed fallback pitch A4. -/
def notaTry (conv : ℝ → Option String) (hz : ℝ) : String := (conv hz).getD ("A4")

/-- Embedding of the whole note loop of `main` with conversion attempt `conv`. -/
def notas (conv : ℝ → Option String) (hzs : List ℝ) : List String := hzs.map (notaTry conv)

/-- Embedding of `librosa.tone(hz, sr=SR, duration=DURACION_NOTA)`:
`int(0.15 * 44100) = 6615` samples of `cos(2*pi*f*t/sr + phi)` with the librosa
default phase `phi = -pi/2`. -/
def tone (freq : ℝ) : List ℝ :=
  (List.range 6615).map fun i : ℕ => Real.cos (2 * Real.pi * freq * i / SR - Real.pi / 2)

/-- Embedding of the audio loop of `main`: one tone per frequency, entries with
`hz < 20` skipped by the `continue` branch. -/
def audioOf (hzs : List ℝ) : List (List ℝ) :=
  (hzs.filter fun hz => decide (¬ hz < 20)).map tone

/-- Embedding of `audio_full = np.concatenate(audio)`. -/
def waveformOf (hzs : List ℝ) : List ℝ := (audioOf hzs).flatten

/-- Embedding of the `df_output` table: one row
`(tiempo, pct_change, frecuencia_hz, nota)` per input sample. -/
def tableOf (pct hzs : List ℝ) (ns : List String) : List (ℕ × ℝ × ℝ × String) :=
  (List.range pct.length).zip (pct.zip (hzs.zip ns))

/-- Value lattice of a pandas float column: finite, positive infinity,
negative infinity, or missing (NaN). -/
inductive PF where
  | fin : ℝ → PF
  | pinf : PF
  | ninf : PF
  | nan : PF

/-- A `PF` value is finite when it carries a real number. -/
def PF.isFinite : PF → Bool
  | .fin _ => true
  | _ => false

/-- One step of `pct_change`: `cur / prev - 1` under IEEE float division rules;
a zero previous sample yields a signed infinity (or NaN for `0 / 0`). -/
def pctElem (prev cur : ℝ) : PF :=
  if prev = 0 then (if 0 < cur then PF.pinf else if cur < 0 then PF.ninf else PF.nan)
  else PF.fin (cur / prev - 1)

/-- Embedding of `.fillna(0)`: missing values become 0; infinities survive. -/
def fillna0 (l : List PF) : List PF :=
  l.map fun v => match v with | PF.nan => PF.fin 0 | w => w

/-- Embedding of
`df['value'].replace([inf, -inf], nan).pct_change().fillna(0)` for a
finite-valued input series (on which the `replace` step is the identity):
element 0 is the filled leading NaN, element `i > 0` is `x[i]/x[i-1] - 1`. -/
def pct_change : List ℝ → List PF
  | [] => []
  | x :: xs => fillna0 (PF.nan :: List.zipWith pctElem (x :: xs) xs)

/-! Helper lemmas. -/

theorem getD_map_range {α : Type _} (g : ℕ → α) (n i : ℕ) (d : α) (h : i < n) :
    ((List.range n).map g).getD i d = g i := by
  have h2 : i < ((List.range n).map g).length := by simpa using h
  rw [List.getD_eq_getElem?_getD, List.getElem?_eq_getElem h2]
  simp

theorem clip_lo {x lo hi : ℝ} (h : lo ≤ hi) : lo ≤ clip x lo hi :=
  le_min (le_max_right x lo) h

theorem clip_hi (x lo hi : ℝ) : clip x lo hi ≤ hi := min_le_right _ _

theorem fract_half (x : ℝ) (hf : Int.fract x = 1 / 2) : x = (⌊x⌋ : ℝ) + 1 / 2 := by
  have h1 := Int.floor_add_fract x
  rw [hf] at h1
  linarith

theorem roundEven_bounds (x : ℝ) : ⌊x⌋ ≤ roundEven x ∧ roundEven x ≤ ⌈x⌉ := by
  unfold roundEven
  split_ifs with hf
  · have hx : x = (⌊x⌋ : ℝ) + 1 / 2 := fract_half x hf
    have hhalf : ⌈(1 / 2 : ℝ)⌉ = 1 := by
      have ha : ⌈(1 / 2 : ℝ)⌉ ≤ 1 := Int.ceil_le.mpr (by norm_num)
      have hb : 0 < ⌈(1 / 2 : ℝ)⌉ := Int.lt_ceil.mpr (by norm_num)
      omega
    have hceil : ⌈x⌉ = ⌊x⌋ + 1 := by
      conv_lhs => rw [hx]
      rw [add_comm, Int.ceil_add_int, hhalf]
      omega
    rcases Int.even_or_odd ⌊x⌋ with ⟨m, hm⟩ | ⟨m, hm⟩
    · have hdiv : x / 2 = (m : ℝ) + 1 / 4 := by
        rw [hx, hm]; push_cast; ring
      have hr : round (x / 2) = m := by
        rw [hdiv, add_comm, round_add_int]
        norm_num [round_eq]
        try omega
      rw [hr, hceil, hm]
      omega
    · have hdiv : x / 2 = (m : ℝ) + 3 / 4 := by
        rw [hx, hm]; push_cast; ring
      have hr : round (x / 2) = m + 1 := by
        rw [hdiv, add_comm, round_add_int]
        norm_num [round_eq]
        try omega
      rw [hr, hceil, hm]
      omega
  · rw [round_eq]
    constructor
    · exact Int.floor_le_floor (by linarith)
    · have h2 : ⌊x + 1 / 2⌋ < ⌈x⌉ + 1 := by
        apply Int.floor_lt.mpr
        have h3 := Int.le_ceil x
        push_cast
        linarith
      omega

theorem round2_ge_int (m : ℤ) (y : ℝ) (h : (m : ℝ) ≤ y) : (m : ℝ) ≤ round2 y := by
  unfold round2
  have h1 : (100 * m : ℤ) ≤ ⌊100 * y⌋ := Int.le_floor.mpr (by push_cast; linarith)
  have h2 : (100 * m : ℤ) ≤ roundEven (100 * y) := le_trans h1 (roundEven_bounds (100 * y)).1
  have h3 : ((100 * m : ℤ) : ℝ) ≤ (roundEven (100 * y) : ℝ) := by exact_mod_cast h2
  push_cast at h3
  linarith

theorem round2_le_int (m : ℤ) (y : ℝ) (h : y ≤ (m : ℝ)) : round2 y ≤ (m : ℝ) := by
  unfold round2
  have h1 : ⌈100 * y⌉ ≤ (100 * m : ℤ) := Int.ceil_le.mpr (by push_cast; linarith)
  have h2 : roundEven (100 * y) ≤ (100 * m : ℤ) := le_trans (roundEven_bounds (100 * y)).2 h1
  have h3 : (roundEven (100 * y) : ℝ) ≤ ((100 * m : ℤ) : ℝ) := by exact_mod_cast h2
  push_cast at h3
  linarith

theorem round2_clip_bounds (y : ℝ) :
    20 ≤ round2 (clip y 20 5000) ∧ round2 (clip y 20 5000) ≤ 5000 := by
  have h1 : ((20 : ℤ) : ℝ) ≤ clip y 20 5000 := by
    push_cast
    exact clip_lo (by norm_num)
  have h2 : clip y 20 5000 ≤ ((5000 : ℤ) : ℝ) := by
    push_cast
    exact clip_hi _ _ _
  have h3 := round2_ge_int 20 _ h1
  have h4 := round2_le_int 5000 _ h2
  push_cast at h3 h4
  exact ⟨h3, h4⟩

/-! Claims about the frequency synthesis and the modulation signal. -/

/-- C2: for every index `i` below the series length, `FrequencySequence[i]` equals
`round2(clip(fundamental * HARMONIC_PROPS[i % 6] * (0.6 + 0.4 * modulation[i]), 20, 5000))`,
so every value lies in `[20, 5000]` and is an integer multiple of `1/100`
(at most two decimal digits). -/
theorem c2_frequency_sequence (f : ℝ) (nz : List ℝ) (i : ℕ) (h : i < nz.length) :
    (hz_values f nz).getD i 0 =
      round2 (clip (f * HARMONIC_PROPS.getD (i % 6) 0 * (0.6 + 0.4 * nz.getD i 0)) 20 5000) ∧
    20 ≤ (hz_values f nz).getD i 0 ∧ (hz_values f nz).getD i 0 ≤ 5000 ∧
    ∃ k : ℤ, (hz_values f nz).getD i 0 = (k : ℝ) / 100 := by
  have hv : (hz_values f nz).getD i 0 =
      round2 (clip (f * HARMONIC_PROPS.getD (i % HARMONIC_PROPS.length) 0 *
        (0.6 + 0.4 * nz.getD i 0)) 20 5000) := by
    unfold hz_values
    exact getD_map_range _ _ _ _ h
  have hlen : HARMONIC_PROPS.length = 6 := by rfl
  rw [hlen] at hv
  refine ⟨hv, ?_, ?_, ?_⟩
  · rw [hv]; exact (round2_clip_bounds _).1
  · rw [hv]; exact (round2_clip_bounds _).2
  · rw [hv]; exact ⟨roundEven (100 * clip (f * HARMONIC_PROPS.getD (i % 6) 0 *
      (0.6 + 0.4 * nz.getD i 0)) 20 5000), rfl⟩

/-- Witness for C2 at `fundamental = 440`, `modulation = [0]`, `i = 0`. -/
theorem c2_frequency_sequence_witness :
    (0 : ℕ) < ([(0 : ℝ)]).length ∧
    20 ≤ (hz_values 440 [(0 : ℝ)]).getD 0 0 ∧ (hz_values 440 [(0 : ℝ)]).getD 0 0 ≤ 5000 := by
  have h := c2_frequency_sequence 440 [(0 : ℝ)] 0 (by norm_num)
  exact ⟨by norm_num, h.2.1, h.2.2.1⟩

/-- C3: the modulation signal has the length of its input, each entry is the
clamped-and-rescaled Gaussian-smoothed value, and every entry lies in `[0, 1]`. -/
theorem c3_modulation_signal (xs : List ℝ) :
    (normalizar_cambios xs).length = xs.length ∧
    (∀ i, i < xs.length → (normalizar_cambios xs).getD i 0 =
      (clip ((suavizado xs).getD i 0) (-0.08) 0.12 + 0.08) / 0.2) ∧
    ∀ v ∈ normalizar_cambios xs, 0 ≤ v ∧ v ≤ 1 := by
  have hslen : (suavizado xs).length = xs.length := by
    unfold suavizado
    simp
  refine ⟨?_, ?_, ?_⟩
  · unfold normalizar_cambios
    simp [hslen]
  · intro i hi
    unfold normalizar_cambios
    have h2 : i < (suavizado xs).length := by rw [hslen]; exact hi
    rw [List.getD_eq_getElem?_getD, List.getElem?_map, List.getElem?_eq_getElem h2]
    simp [List.getD_eq_getElem?_getD, List.getElem?_eq_getElem h2]
  · intro v hv
    unfold normalizar_cambios at hv
    rcases List.mem_map.mp hv with ⟨s, _, rfl⟩
    have hlo : (-0.08 : ℝ) ≤ clip s (-0.08) 0.12 := clip_lo (by norm_num)
    have hhi : clip s (-0.08) 0.12 ≤ 0.12 := clip_hi _ _ _
    constructor
    · have : (0 : ℝ) ≤ clip s (-0.08) 0.12 + 0.08 := by linarith
      positivity
    · rw [div_le_one (by norm_num)]
      linarith

/-- Witness for C3 at the singleton zero change series: the modulation value is
the midpoint default `0.4` and lies in `[0, 1]`. -/
theorem c3_modulation_signal_witness :
    (normalizar_cambios [(0 : ℝ)]).length = 1 ∧
    ∀ v ∈ normalizar_cambios [(0 : ℝ)], 0 ≤ v ∧ v ≤ 1 := by
  have h := c3_modulation_signal [(0 : ℝ)]
  exact ⟨by simpa using h.1, h.2.2⟩

/-! Length lemmas for the pipeline stages. -/

theorem suavizado_length (xs : List ℝ) : (suavizado xs).length = xs.length := by
  unfold suavizado
  simp

theorem normalizar_cambios_length (xs : List ℝ) :
    (normalizar_cambios xs).length = xs.length := by
  unfold normalizar_cambios
  rw [List.length_map, suavizado_length]

theorem hz_values_length (f : ℝ) (nz : List ℝ) : (hz_values f nz).length = nz.length := by
  unfold hz_values
  simp

theorem tone_length (freq : ℝ) : (tone freq).length = 6615 := by
  unfold tone
  rw [List.length_map, List.length_range]

theorem pct_change_length (xs : List ℝ) : (pct_change xs).length = xs.length := by
  cases xs with
  | nil => rfl
  | cons x t =>
    unfold pct_change fillna0
    simp [List.length_zipWith]

theorem hz_values_all_ge (f : ℝ) (nz : List ℝ) : ∀ hz ∈ hz_values f nz, 20 ≤ hz := by
  intro hz h
  unfold hz_values at h
  rcases List.mem_map.mp h with ⟨i, _, rfl⟩
  exact (round2_clip_bounds _).1

/-! Claims about the audio rendering and the output table. -/

/-- C9: every synthesized frequency is at least 20 Hz after clamping and
rounding, so the sub-20-Hz skip branch of the audio loop keeps every entry:
for a modulation signal of length `N ≥ 1` the audio list holds exactly `N`
tones and the final concatenation never receives an empty list. -/
theorem c9_skip_branch_unreachable (f : ℝ) (nz : List ℝ) (h : 1 ≤ nz.length) :
    (∀ hz ∈ hz_values f nz, 20 ≤ hz) ∧
    ((hz_values f nz).filter fun hz => decide (¬ hz < 20)) = hz_values f nz ∧
    (audioOf (hz_values f nz)).length = nz.length ∧
    audioOf (hz_values f nz) ≠ [] := by
  have hall := hz_values_all_ge f nz
  have hfilter : ((hz_values f nz).filter fun hz => decide (¬ hz < 20)) = hz_values f nz := by
    apply List.filter_eq_self.mpr
    intro a ha
    simpa using not_lt.mpr (hall a ha)
  have halen : (audioOf (hz_values f nz)).length = nz.length := by
    unfold audioOf
    rw [List.length_map, hfilter, hz_values_length]
  refine ⟨hall, hfilter, halen, ?_⟩
  have hpos : 0 < (audioOf (hz_values f nz)).length := by
    rw [halen]
    omega
  exact List.ne_nil_of_length_pos hpos

/-- Witness for C9 at `fundamental = 440`, `modulation = [0]`. -/
theorem c9_skip_branch_unreachable_witness :
    (audioOf (hz_values 440 [(0 : ℝ)])).length = 1 ∧
    audioOf (hz_values 440 [(0 : ℝ)]) ≠ [] := by
  have h := c9_skip_branch_unreachable 440 [(0 : ℝ)] (by norm_num)
  exact ⟨h.2.2.1, h.2.2.2⟩

/-- C5: the output table has one row per input sample, while the waveform is
the concatenation of one 6615-sample tone per frequency entry that survives the
20 Hz skip rule, where `6615 = SR * DURACION_NOTA` samples per tone. -/
theorem c5_table_and_waveform (serie pct : List ℝ) (f : ℝ) (h : pct.length = serie.length) :
    (pct_change serie).length = serie.length ∧
    (tableOf pct (hz_values f (normalizar_cambios pct))
      ((hz_values f (normalizar_cambios pct)).map notaOf)).length = serie.length ∧
    (waveformOf (hz_values f (normalizar_cambios pct))).length =
      6615 * ((hz_values f (normalizar_cambios pct)).filter fun hz => decide (¬ hz < 20)).length ∧
    ((6615 : ℝ) = (SR : ℝ) * DURACION_NOTA) := by
  have hlen1 : (hz_values f (normalizar_cambios pct)).length = pct.length := by
    rw [hz_values_length, normalizar_cambios_length]
  refine ⟨pct_change_length _, ?_, ?_, by norm_num [SR, DURACION_NOTA]⟩
  · unfold tableOf
    simp only [List.length_zip, List.length_map, List.length_range, hlen1, h]
    omega
  · unfold waveformOf audioOf
    rw [List.length_flatten, List.map_map]
    have hsum : ∀ l : List ℝ, (l.map (List.length ∘ tone)).sum = 6615 * l.length := by
      intro l
      induction l with
      | nil => simp
      | cons a t ih =>
        simp only [List.map_cons, List.sum_cons, ih, Function.comp_apply, tone_length,
          List.length_cons]
        ring
    rw [hsum]

/-- Witness for C5 at the singleton zero series. -/
theorem c5_table_and_waveform_witness :
    (pct_change [(0 : ℝ)]).length = 1 ∧ ((6615 : ℝ) = (SR : ℝ) * DURACION_NOTA) := by
  have h := c5_table_and_waveform [(0 : ℝ)] [(0 : ℝ)] 440 rfl
  exact ⟨h.1, h.2.2.2⟩

/-! Claims about per-element pitch conversion failure handling. -/

theorem getD_map_of_lt {α β : Type _} (g : α → β) (l : List α) (i : ℕ) (d : β) (d2 : α)
    (h : i < l.length) : (l.map g).getD i d = g (l.getD i d2) := by
  have h2 : i < (l.map g).length := by simpa using h
  rw [List.getD_eq_getElem?_getD, List.getElem?_eq_getElem h2,
    List.getD_eq_getElem?_getD, List.getElem?_eq_getElem h]
  simp

/-- C8: a failing MIDI conversion is replaced by the fallback pitch A4 for that
entry only; successful entries are untouched and the pitch sequence always has
one entry per frequency. -/
theorem c8_per_element_fallback (conv : ℝ → Option String) (hzs : List ℝ) (i : ℕ)
    (h : i < hzs.length) :
    (notas conv hzs).length = hzs.length ∧
    (conv (hzs.getD i 0) = none → (notas conv hzs).getD i ("") = "A4") ∧
    (∀ s, conv (hzs.getD i 0) = some s → (notas conv hzs).getD i ("") = s) := by
  have hg : (notas conv hzs).getD i ("") = notaTry conv (hzs.getD i 0) := by
    unfold notas
    exact getD_map_of_lt _ _ _ _ _ h
  refine ⟨by unfold notas; simp, ?_, ?_⟩
  · intro hn
    rw [hg]
    unfold notaTry
    rw [hn]
    rfl
  · intro s hs
    rw [hg]
    unfold notaTry
    rw [hs]
    rfl

/-- Witness for C8: a converter that always fails yields A4; a converter that
succeeds leaves its value in place. -/
theorem c8_per_element_fallback_witness :
    (notas (fun _ => none) [(5 : ℝ)]).getD 0 ("") = "A4" ∧
    (notas (fun _ => some ("G3")) [(5 : ℝ)]).getD 0 ("") = "G3" :=
  ⟨(c8_per_element_fallback (fun _ => none) [(5 : ℝ)] 0 (by norm_num)).2.1 rfl,
   (c8_per_element_fallback (fun _ => some ("G3")) [(5 : ℝ)] 0 (by norm_num)).2.2 _ rfl⟩

/-! Claims about the change series. -/

theorem mem_zipWith {α β γ : Type _} {f : α → β → γ} :
    ∀ {l1 : List α} {l2 : List β} {c : γ}, c ∈ List.zipWith f l1 l2 →
      ∃ a b, a ∈ l1 ∧ b ∈ l2 ∧ c = f a b := by
  intro l1
  induction l1 with
  | nil =>
    intro l2 c hc
    simp at hc
  | cons a t ih =>
    intro l2 c hc
    cases l2 with
    | nil => simp at hc
    | cons b t2 =>
      rw [List.zipWith_cons_cons] at hc
      rcases List.mem_cons.mp hc with hh | ht
      · exact ⟨a, b, List.mem_cons_self _ _, List.mem_cons_self _ _, hh⟩
      · rcases ih ht with ⟨a2, b2, ha, hb, he⟩
        exact ⟨a2, b2, List.mem_cons_of_mem _ ha, List.mem_cons_of_mem _ hb, he⟩

/-- C6 counterexample: the input series `[0, 1]` is finite, yet its change
series contains positive infinity (the division `1 / 0` of `pct_change`),
which `fillna(0)` does not replace; the normalizer is handed a non-finite
value. -/
theorem c6_div_zero_counterexample :
    pct_change [(0 : ℝ), 1] = [PF.fin 0, PF.pinf] ∧ PF.pinf.isFinite = false := by
  constructor
  · unfold pct_change
    have h1 : pctElem 0 1 = PF.pinf := by
      unfold pctElem
      rw [if_pos rfl, if_pos (by norm_num)]
    simp [fillna0, h1]
  · rfl

/-- C6 (amended): the change series starts with 0 (the filled leading NaN),
has the input's length, and is entirely finite whenever no input sample is
zero; a zero sample used as a divisor yields an infinity that survives
`fillna(0)`. -/
theorem c6_change_series (xs : List ℝ) (h : xs ≠ []) :
    (pct_change xs).getD 0 PF.nan = PF.fin 0 ∧
    (pct_change xs).length = xs.length ∧
    ((∀ x ∈ xs, x ≠ 0) → ∀ v ∈ pct_change xs, v.isFinite = true) := by
  cases xs with
  | nil => exact absurd rfl h
  | cons a t =>
    refine ⟨?_, pct_change_length _, ?_⟩
    · unfold pct_change fillna0
      simp
    · intro hnz v hv
      simp only [pct_change, fillna0] at hv
      rw [List.map_cons] at hv
      rcases List.mem_cons.mp hv with rfl | hm
      · rfl
      · rcases List.mem_map.mp hm with ⟨w, hw, rfl⟩
        rcases mem_zipWith hw with ⟨p, c, hp, _, rfl⟩
        have hpe : pctElem p c = PF.fin (c / p - 1) := by
          unfold pctElem
          rw [if_neg (hnz p hp)]
        rw [hpe]
        rfl

/-- Witness for C6 at the all-nonzero series `[1, 2]`. -/
theorem c6_change_series_witness :
    (pct_change [(1 : ℝ), 2]).getD 0 PF.nan = PF.fin 0 ∧
    ∀ v ∈ pct_change [(1 : ℝ), 2], v.isFinite = true := by
  have h := c6_change_series [(1 : ℝ), 2] (by simp)
  refine ⟨h.1, h.2.2 ?_⟩
  intro x hx
  simp only [List.mem_cons, List.not_mem_nil, or_false] at hx
  rcases hx with rfl | rfl <;> norm_num


/-! Concrete evaluations of the spectral pipeline at length-4 inputs, where the
Hann window and the DFT kernel take exact closed-form values. -/

theorem cos_two_pi_div_three : Real.cos (2 * Real.pi / 3) = -(1 / 2) := by
  have h : 2 * Real.pi / 3 = Real.pi - Real.pi / 3 := by ring
  rw [h, Real.cos_pi_sub, Real.cos_pi_div_three]

theorem hanning_four : hanning 4 = [0, 3 / 4, 3 / 4, 0] := by
  unfold hanning
  rw [if_neg (by norm_num)]
  rw [show List.range 4 = [0, 1, 2, 3] from by decide]
  simp only [List.map_cons, List.map_nil]
  have c0 : Real.cos (2 * Real.pi * (0 : ℕ) / ((4 : ℕ) - 1 : ℝ)) = 1 := by
    norm_num
  have c1 : Real.cos (2 * Real.pi * (1 : ℕ) / ((4 : ℕ) - 1 : ℝ)) = -(1 / 2) := by
    push_cast
    rw [show 2 * Real.pi * 1 / (4 - 1 : ℝ) = 2 * Real.pi / 3 from by ring, cos_two_pi_div_three]
  have c2 : Real.cos (2 * Real.pi * (2 : ℕ) / ((4 : ℕ) - 1 : ℝ)) = -(1 / 2) := by
    push_cast
    rw [show 2 * Real.pi * 2 / (4 - 1 : ℝ) = -(2 * Real.pi / 3) + 2 * Real.pi from by ring,
      Real.cos_add_two_pi, Real.cos_neg, cos_two_pi_div_three]
  have c3 : Real.cos (2 * Real.pi * (3 : ℕ) / ((4 : ℕ) - 1 : ℝ)) = 1 := by
    push_cast
    rw [show 2 * Real.pi * 3 / (4 - 1 : ℝ) = 2 * Real.pi from by ring, Real.cos_two_pi]
  rw [c0, c1, c2, c3]
  norm_num

theorem windowed_ones : windowed [1, 1, 1, 1] = [0, 3 / 4, 3 / 4, 0] := by
  unfold windowed
  rw [show ([1, 1, 1, 1] : List ℝ).length = 4 from rfl, hanning_four]
  norm_num [List.zipWith]

theorem zeta4 : Complex.exp (-(2 * (Real.pi : ℂ) * Complex.I) / 4) = -Complex.I := by
  have h : -(2 * (Real.pi : ℂ) * Complex.I) / 4 = ((-(Real.pi / 2) : ℝ) : ℂ) * Complex.I := by
    push_cast
    ring
  rw [h, Complex.exp_mul_I, ← Complex.ofReal_cos, ← Complex.ofReal_sin,
    Real.cos_neg, Real.sin_neg, Real.cos_pi_div_two, Real.sin_pi_div_two]
  push_cast
  ring

theorem abs_sq_eq (z : ℂ) : Complex.abs z ^ 2 = z.re * z.re + z.im * z.im := by
  rw [Complex.sq_abs, Complex.normSq_apply]

theorem espectro_ones : espectro [1, 1, 1, 1] = [9 / 4, 9 / 8] := by
  unfold espectro
  rw [show ([1, 1, 1, 1] : List ℝ).length / 2 = 2 from rfl, windowed_ones]
  unfold dft
  rw [show ([0, 3 / 4, 3 / 4, 0] : List ℝ).length = 4 from rfl]
  rw [show List.range 4 = [0, 1, 2, 3] from by decide]
  rw [show ((4 : ℕ) : ℂ) = 4 from by norm_num]
  rw [zeta4]
  simp only [List.map_cons, List.map_nil, List.take_succ_cons, List.take_zero,
    List.sum_cons, List.sum_nil, List.getD_cons_zero, List.getD_cons_succ]
  simp only [abs_sq_eq]
  norm_num [Complex.add_re, Complex.add_im, Complex.mul_re, Complex.mul_im,
    Complex.I_re, Complex.I_im, Complex.neg_re, Complex.neg_im, Complex.ofReal_re,
    Complex.ofReal_im, pow_succ, pow_zero]

theorem espectro_zeros : espectro [0, 0, 0, 0] = [0, 0] := by
  unfold espectro
  have hw : windowed [0, 0, 0, 0] = [0, 0, 0, 0] := by
    unfold windowed
    rw [show ([0, 0, 0, 0] : List ℝ).length = 4 from rfl, hanning_four]
    norm_num [List.zipWith]
  rw [show ([0, 0, 0, 0] : List ℝ).length / 2 = 2 from rfl, hw]
  unfold dft
  rw [show ([0, 0, 0, 0] : List ℝ).length = 4 from rfl]
  rw [show List.range 4 = [0, 1, 2, 3] from by decide]
  simp only [List.map_cons, List.map_nil, List.take_succ_cons, List.take_zero,
    List.sum_cons, List.sum_nil, List.getD_cons_zero, List.getD_cons_succ]
  simp only [abs_sq_eq]
  norm_num

theorem umbral_ones : umbral [1, 1, 1, 1] = 27 / 80 := by
  unfold umbral
  rw [espectro_ones]
  rw [show maxList [9 / 4, 9 / 8] = max (9 / 4) (9 / 8) from rfl]
  rw [max_eq_left (by norm_num)]
  norm_num

theorem umbral_zeros : umbral [0, 0, 0, 0] = 0 := by
  unfold umbral
  rw [espectro_zeros]
  rw [show maxList [(0 : ℝ), 0] = max 0 0 from rfl]
  norm_num

theorem picos_ones : picos [(1 : ℝ), 1, 1, 1] = [0, 1] := by
  unfold picos
  rw [espectro_ones, umbral_ones]
  rw [show ([9 / 4, 9 / 8] : List ℝ).length = 2 from rfl]
  rw [show List.range 2 = [0, 1] from by decide]
  rw [List.filter_cons, List.filter_cons, List.filter_nil]
  rw [decide_eq_true (show ([9 / 4, 9 / 8] : List ℝ).getD 0 0 > 27 / 80 by
    rw [List.getD_cons_zero]; norm_num)]
  rw [decide_eq_true (show ([9 / 4, 9 / 8] : List ℝ).getD 1 0 > 27 / 80 by
    rw [List.getD_cons_succ, List.getD_cons_zero]; norm_num)]
  simp

theorem picos_zeros : picos [(0 : ℝ), 0, 0, 0] = [] := by
  unfold picos
  rw [espectro_zeros, umbral_zeros]
  rw [show ([(0 : ℝ), 0] : List ℝ).length = 2 from rfl]
  rw [show List.range 2 = [0, 1] from by decide]
  rw [List.filter_cons, List.filter_cons, List.filter_nil]
  rw [decide_eq_false (show ¬ ([(0 : ℝ), 0] : List ℝ).getD 0 0 > 0 by
    rw [List.getD_cons_zero]; norm_num)]
  rw [decide_eq_false (show ¬ ([(0 : ℝ), 0] : List ℝ).getD 1 0 > 0 by
    rw [List.getD_cons_succ, List.getD_cons_zero]; norm_num)]
  simp

theorem frecuencia_base_ones : frecuencia_base [(1 : ℝ), 1, 1, 1] = 0 := by
  unfold frecuencia_base
  rw [picos_ones]
  rw [show ([(1 : ℝ), 1, 1, 1] : List ℝ).length = 4 from rfl]
  unfold frecuencias
  rw [show (4 : ℕ) / 2 = 2 from rfl]
  rw [show List.range 2 = [0, 1] from by decide]
  simp only [List.map_cons, List.map_nil, List.getD_cons_zero, List.getD_cons_succ]
  rw [show minList [((0 : ℕ) : ℝ) / ((4 : ℕ) : ℝ), ((1 : ℕ) : ℝ) / ((4 : ℕ) : ℝ)] =
    min (((0 : ℕ) : ℝ) / ((4 : ℕ) : ℝ)) (((1 : ℕ) : ℝ) / ((4 : ℕ) : ℝ)) from rfl]
  push_cast
  rw [min_eq_left (by norm_num)]
  norm_num

theorem analisis_eq_of_ne_nil {serie : List ℝ} (h : espectro serie ≠ []) :
    analisis_espectral_mejorado serie =
      if picos serie = [] then some 440 else some (clip |frecuencia_base serie| 80 2000) := by
  unfold analisis_espectral_mejorado
  cases hc : espectro serie with
  | nil => exact absurd hc h
  | cons a l => rfl

theorem analisis_ones : analisis_espectral_mejorado [(1 : ℝ), 1, 1, 1] = some 80 := by
  rw [analisis_eq_of_ne_nil (by rw [espectro_ones]; simp)]
  rw [if_neg (by rw [picos_ones]; simp)]
  rw [frecuencia_base_ones, abs_zero]
  rw [show clip (0 : ℝ) 80 2000 = 80 from by
    unfold clip
    rw [max_eq_right (by norm_num : (0 : ℝ) ≤ 80), min_eq_left (by norm_num : (80 : ℝ) ≤ 2000)]]

theorem analisis_zeros : analisis_espectral_mejorado [(0 : ℝ), 0, 0, 0] = some 440 := by
  rw [analisis_eq_of_ne_nil (by rw [espectro_zeros]; simp)]
  rw [if_pos picos_zeros]

/-! Structural lemmas about the spectrum. -/

theorem hanning_length (n : ℕ) : (hanning n).length = n := by
  unfold hanning
  split_ifs with h
  · simp [h]
  · simp

theorem windowed_length (serie : List ℝ) : (windowed serie).length = serie.length := by
  unfold windowed
  rw [List.length_zipWith, hanning_length]
  omega

theorem dft_length (x : List ℝ) : (dft x).length = x.length := by
  unfold dft
  simp

theorem espectro_length (serie : List ℝ) : (espectro serie).length = serie.length / 2 := by
  unfold espectro
  rw [List.length_map, List.length_take, dft_length, windowed_length]
  omega

theorem frecuencias_length (n : ℕ) : (frecuencias n).length = n / 2 := by
  unfold frecuencias
  simp

theorem minList_le {l : List ℝ} {x : ℝ} (h : x ∈ l) : minList l ≤ x := by
  induction l with
  | nil => simp at h
  | cons a t ih =>
    cases t with
    | nil =>
      simp only [List.mem_cons, List.not_mem_nil, or_false] at h
      subst h
      exact le_refl _
    | cons b t2 =>
      rw [show minList (a :: b :: t2) = min a (minList (b :: t2)) from rfl]
      rcases List.mem_cons.mp h with rfl | hm
      · exact min_le_left _ _
      · exact le_trans (min_le_right _ _) (ih hm)

theorem le_minList {l : List ℝ} {c : ℝ} (hne : l ≠ []) (h : ∀ x ∈ l, c ≤ x) :
    c ≤ minList l := by
  induction l with
  | nil => exact absurd rfl hne
  | cons a t ih =>
    cases t with
    | nil => exact h a (by simp)
    | cons b t2 =>
      rw [show minList (a :: b :: t2) = min a (minList (b :: t2)) from rfl]
      exact le_min (h a (by simp)) (ih (by simp) fun x hx => h x (List.mem_cons_of_mem _ hx))

theorem getD_mem_of_lt {l : List ℝ} {i : ℕ} (h : i < l.length) : l.getD i 0 ∈ l := by
  rw [List.getD_eq_getElem?_getD, List.getElem?_eq_getElem h]
  simp only [Option.getD_some]
  exact List.getElem_mem h

/-! Claims about the spectral analysis. -/

/-- C1 (amended): whenever the spectral analysis returns a value, that value
lies in `[80, 2000]`, and it is exactly `440.0` whenever no bin of the power
spectrum strictly exceeds `0.15` times the maximum power (as happens for the
all-zero series, though not for a nonzero constant series). -/
theorem c1_fundamental_range_and_default (serie : List ℝ) (r : ℝ)
    (h : analisis_espectral_mejorado serie = some r) :
    (80 ≤ r ∧ r ≤ 2000) ∧
    ((∀ p ∈ espectro serie, p ≤ umbral serie) → r = 440) := by
  by_cases hnil : espectro serie = []
  · unfold analisis_espectral_mejorado at h
    rw [hnil] at h
    exact absurd h (by simp)
  · have heq := analisis_eq_of_ne_nil hnil
    rw [heq] at h
    by_cases hp : picos serie = []
    · rw [if_pos hp] at h
      have h440 : (440 : ℝ) = r := Option.some.inj h
      subst h440
      exact ⟨⟨by norm_num, by norm_num⟩, fun _ => rfl⟩
    · rw [if_neg hp] at h
      obtain rfl := Option.some.inj h
      constructor
      · exact ⟨clip_lo (by norm_num), clip_hi _ _ _⟩
      · intro hno
        exfalso
        apply hp
        unfold picos
        rw [List.filter_eq_nil_iff]
        intro i hi
        rw [List.mem_range, espectro_length] at hi
        simp only [decide_eq_true_eq]
        apply not_lt.mpr
        apply hno
        apply getD_mem_of_lt
        rw [espectro_length]
        exact hi

/-- C1 counterexample: the constant series `[1, 1, 1, 1]` does not fall back to
440 Hz as the claim asserts; its DC bin dominates the spectrum and the
analysis returns 80 Hz. -/
theorem c1_constant_series_counterexample :
    analisis_espectral_mejorado [(1 : ℝ), 1, 1, 1] = some 80 ∧
    some (80 : ℝ) ≠ some (440 : ℝ) := by
  refine ⟨analisis_ones, ?_⟩
  intro hcon
  exact absurd (Option.some.inj hcon) (by norm_num)

/-- Witness for C1 at the all-zero series, whose spectrum has no bin above the
threshold, so the default 440 Hz is returned. -/
theorem c1_fundamental_range_and_default_witness :
    analisis_espectral_mejorado [(0 : ℝ), 0, 0, 0] = some 440 ∧
    (80 ≤ (440 : ℝ) ∧ (440 : ℝ) ≤ 2000) ∧ (440 : ℝ) = 440 := by
  have h := c1_fundamental_range_and_default [(0 : ℝ), 0, 0, 0] 440 analisis_zeros
  refine ⟨analisis_zeros, h.1, h.2 ?_⟩
  intro p hp
  rw [espectro_zeros] at hp
  simp only [List.mem_cons, List.not_mem_nil, or_false, or_self] at hp
  rw [hp, umbral_zeros]

/-- C10: whenever the DC bin (bin 0) of the power spectrum strictly exceeds the
`0.15 x max` threshold, bin 0 is a peak, the lowest peak frequency is 0, and
the analysis returns exactly 80.0 Hz (0 Hz clamped to the lower bound). -/
theorem c10_dc_bin_gives_80 (serie : List ℝ)
    (h1 : espectro serie ≠ [])
    (h2 : (espectro serie).getD 0 0 > umbral serie) :
    0 ∈ picos serie ∧ frecuencia_base serie = 0 ∧
    analisis_espectral_mejorado serie = some 80 := by
  have hlen : 0 < (espectro serie).length := List.length_pos.mpr h1
  have hmem0 : 0 ∈ picos serie := by
    unfold picos
    rw [List.mem_filter]
    exact ⟨List.mem_range.mpr hlen, decide_eq_true h2⟩
  have hpne : picos serie ≠ [] := List.ne_nil_of_mem hmem0
  have hn2 : 0 < serie.length / 2 := by
    rw [← espectro_length]
    exact hlen
  have hfb : frecuencia_base serie = 0 := by
    unfold frecuencia_base
    have h0 : (frecuencias serie.length).getD 0 0 = 0 := by
      unfold frecuencias
      rw [getD_map_range _ _ _ _ hn2]
      simp
    apply le_antisymm
    · calc minList ((picos serie).map fun i => (frecuencias serie.length).getD i 0)
          ≤ (frecuencias serie.length).getD 0 0 :=
            minList_le (List.mem_map.mpr ⟨0, hmem0, rfl⟩)
        _ = 0 := h0
    · apply le_minList
      · intro hnil
        exact hpne (List.map_eq_nil_iff.mp hnil)
      · intro x hx
        rcases List.mem_map.mp hx with ⟨i, hi, rfl⟩
        by_cases hib : i < serie.length / 2
        · unfold frecuencias
          rw [getD_map_range _ _ _ _ hib]
          positivity
        · rw [List.getD_eq_default]
          rw [frecuencias_length]
          omega
  refine ⟨hmem0, hfb, ?_⟩
  rw [analisis_eq_of_ne_nil h1, if_neg hpne, hfb, abs_zero]
  rw [show clip (0 : ℝ) 80 2000 = 80 from by
    unfold clip
    rw [max_eq_right (by norm_num : (0 : ℝ) ≤ 80), min_eq_left (by norm_num : (80 : ℝ) ≤ 2000)]]

/-- Witness for C10 at the constant series `[1, 1, 1, 1]`, whose DC bin power
`9/4` strictly exceeds the threshold `27/80`. -/
theorem c10_dc_bin_gives_80_witness :
    (espectro [(1 : ℝ), 1, 1, 1]).getD 0 0 > umbral [(1 : ℝ), 1, 1, 1] ∧
    analisis_espectral_mejorado [(1 : ℝ), 1, 1, 1] = some 80 := by
  have hdc : (espectro [(1 : ℝ), 1, 1, 1]).getD 0 0 > umbral [(1 : ℝ), 1, 1, 1] := by
    rw [espectro_ones, umbral_ones, List.getD_cons_zero]
    norm_num
  have hne : espectro [(1 : ℝ), 1, 1, 1] ≠ [] := by
    rw [espectro_ones]
    simp
  exact ⟨hdc, (c10_dc_bin_gives_80 _ hne hdc).2.2⟩

/-- C7: for a single-sample series the half-spectrum is empty (`n // 2 = 0`),
and `np.max` raises a `ValueError` (modelled by `none`): the analysis crashes
instead of returning a defined FundamentalFrequency. -/
theorem c7_single_sample_raises (x : ℝ) : analisis_espectral_mejorado [x] = none := by
  have he : espectro [x] = [] := by
    unfold espectro
    rw [show ([x] : List ℝ).length / 2 = 0 from by simp]
    simp
  unfold analisis_espectral_mejorado
  rw [he]

/-! Claims about pitch quantization. -/

/-- C4: the quantized MIDI number is always clamped to `[21, 108]` and then
truncated, so no output pitch lies outside that range; a frequency whose
continuous MIDI value is 108.9 is clamped to 108 and named C8. -/
theorem c4_pitch_quantization (hz : ℝ) :
    (21 ≤ midiOf hz ∧ midiOf hz ≤ 108) ∧
    (hz_to_midi hz = 108.9 → notaOf hz = "C8") := by
  have hcast1 : ((RANGO_MIDI.1 : ℤ) : ℝ) = 21 := by norm_num [RANGO_MIDI]
  have hcast2 : ((RANGO_MIDI.2 : ℤ) : ℝ) = 108 := by norm_num [RANGO_MIDI]
  constructor
  · unfold midiOf
    rw [hcast1, hcast2]
    have hlo : (21 : ℝ) ≤ clip (hz_to_midi hz) 21 108 := clip_lo (by norm_num)
    have hhi : clip (hz_to_midi hz) 21 108 ≤ 108 := clip_hi _ _ _
    have hpos : 0 ≤ clip (hz_to_midi hz) 21 108 := by linarith
    unfold pyInt
    rw [if_pos hpos]
    constructor
    · exact Int.le_floor.mpr (by exact_mod_cast hlo)
    · have hfl : (⌊clip (hz_to_midi hz) 21 108⌋ : ℝ) ≤ 108 :=
        le_trans (Int.floor_le _) hhi
      exact_mod_cast hfl
  · intro hm
    unfold notaOf midiOf
    rw [hcast1, hcast2, hm]
    have hclip : clip (108.9 : ℝ) 21 108 = 108 := by
      unfold clip
      rw [max_eq_left (by norm_num), min_eq_right (by norm_num)]
    rw [hclip]
    have hint : pyInt (108 : ℝ) = 108 := by
      unfold pyInt
      rw [if_pos (by norm_num)]
      rw [show (108 : ℝ) = ((108 : ℤ) : ℝ) from by norm_num, Int.floor_intCast]
    rw [hint]
    decide

/-- Witness for C4 at the frequency `440 * 2 ^ (133/40)`, whose continuous MIDI
value is exactly 108.9. -/
theorem c4_pitch_quantization_witness :
    hz_to_midi (440 * (2 : ℝ) ^ ((133 : ℝ) / 40)) = 108.9 ∧
    notaOf (440 * (2 : ℝ) ^ ((133 : ℝ) / 40)) = "C8" := by
  have he : hz_to_midi (440 * (2 : ℝ) ^ ((133 : ℝ) / 40)) = 108.9 := by
    unfold hz_to_midi
    rw [mul_comm (440 : ℝ) _, mul_div_assoc]
    norm_num
  exact ⟨he, (c4_pitch_quantization _).2 he⟩

end SpectralAnalysis

end
